import Mathlib

/-!
Shallow embedding of `matrix_screensaver.py`: the cell-ownership grid
(`MatrixDisplay`), the per-stream state machine (`MatrixWorker`), and the
shutdown drain loop.  Rendering calls (`curses` `addstr`/`refresh`) are
external I/O on the terminal and carry no program state, so they are not
part of the state model; everything else follows the source line by line.
-/

/-- A grid cell is a `(row, column)` integer pair (`(self.y, self.x)` in the
source). -/
abbrev Cell : Type := Int × Int

/-- The occupancy map `self.cells = {cell: (worker-id, value), ..}`, embedded
as an association list.  Key order is irrelevant to every property below. -/
abbrev CellMap : Type := List (Cell × Nat × Char)

/-- Python `m[k]` lookup (`None` when absent). -/
def dictGet (m : CellMap) (k : Cell) : Option (Nat × Char) :=
  (m.find? (fun e => e.1 = k)).map (fun e => e.2)

/-- Python `m[k] = v`: replaces any entry at key `k` (the new entry is placed
at the front; entry order is never observed). -/
def dictSet (m : CellMap) (k : Cell) (v : Nat × Char) : CellMap :=
  (k, v) :: m.filter (fun e => e.1 ≠ k)

/-- Python `del m[k]`. -/
def dictDel (m : CellMap) (k : Cell) : CellMap :=
  m.filter (fun e => e.1 ≠ k)

/-- The keys of the association list are pairwise distinct (true of every
state built from dict operations; an explicit hypothesis where needed). -/
def keysNodup (m : CellMap) : Prop := (m.map (fun e => e.1)).Nodup

/-- Deterministic stream standing in for Python's `random`: `seq` is the
stream of draws, `idx` the next unused position. -/
structure Rng where
  seq : Nat → Nat
  idx : Nat

/-- Advance the stream by one draw. -/
def Rng.next (g : Rng) : Rng := ⟨g.seq, g.idx + 1⟩

/-- `random.randint(lo, hi)`: inclusive on both ends; the draw is reduced into
the requested range. -/
def randint (lo hi : Int) (g : Rng) : Int × Rng :=
  (lo + (g.seq g.idx : Int) % (hi - lo + 1), g.next)

/-- `random.choice(xs)`: fails (raises `IndexError`) on an empty list, which
the embedding reports as `none`. -/
def choice (xs : List String) (g : Rng) : Option (String × Rng) :=
  (xs.get? (g.seq g.idx % xs.length)).map (fun s => (s, g.next))

/-- `MatrixWorker.state`: `'init' | 'write' | 'erase' | 'exit'`. -/
inductive WState where
  | init
  | write
  | erase
  | exit
deriving DecidableEq

/-- The bookkeeping state of `MatrixDisplay`.  `MAX_LEN` is a class constant
(30) in the source; it is carried as a field so differently-configured
instances (e.g. the spec's max-length-3 scenario) are expressible. -/
structure MatrixDisplay where
  lines : List String
  cells : CellMap
  recent_additions : Finset Cell
  recent_removals : Finset Cell
  MAX_LEN : Nat
deriving DecidableEq

/-- `MatrixDisplay.__init__` bookkeeping: empty occupancy map and empty
pending sets (timers, curses setup and colors are external). -/
def MatrixDisplay.new (lines : List String) : MatrixDisplay :=
  { lines := lines
    cells := []
    recent_additions := ∅
    recent_removals := ∅
    MAX_LEN := 30 }

/-- `MatrixDisplay.add_file`: append the stripped, non-blank lines of a file
(whose contents are passed in, since file I/O is external). -/
def MatrixDisplay.add_file (d : MatrixDisplay) (contents : List String) : MatrixDisplay :=
  { d with lines := d.lines ++ (contents.map String.trim).filter (fun l => l.length ≠ 0) }

/-- `MatrixDisplay.write`: unconditionally install `(worker_id, value)` at
`cell`, record the cell as recently added, cancel any pending removal.  The
`addstr` of the fresh-styled glyph is external output. -/
def MatrixDisplay.write (d : MatrixDisplay) (value : Char) (cell : Cell) (worker_id : Nat) :
    MatrixDisplay :=
  { d with
    cells := dictSet d.cells cell (worker_id, value)
    recent_additions := insert cell d.recent_additions
    recent_removals := d.recent_removals.erase cell }

/-- `MatrixDisplay.erase`: only when `cell` is occupied and the caller is the
current owner, drop the occupancy entry, record the pending removal and cancel
any pending addition; otherwise do nothing at all. -/
def MatrixDisplay.erase (d : MatrixDisplay) (cell : Cell) (worker_id : Nat) : MatrixDisplay :=
  match dictGet d.cells cell with
  | none => d
  | some (owner_id, _) =>
      if worker_id = owner_id then
        { d with
          cells := dictDel d.cells cell
          recent_removals := insert cell d.recent_removals
          recent_additions := d.recent_additions.erase cell }
      else d

/-- `MatrixDisplay.refresh`: the blank/restyle passes only write to the
terminal; the state change is that both pending sets are cleared. -/
def MatrixDisplay.refresh (d : MatrixDisplay) : MatrixDisplay :=
  { d with
    recent_removals := ∅
    recent_additions := ∅ }

/-- `MatrixWorker` private state.  `text`/`x`/`y` start as `None` in the
source and are first assigned in the `'init'` branch before any use; the
embedding gives them inert defaults. -/
structure MatrixWorker where
  id : Nat
  text : List Char
  x : Int
  y : Int
  dx : Int
  dy : Int
  cells : List Cell
  state : WState
deriving DecidableEq

/-- `MatrixWorker.__init__`. -/
def MatrixWorker.new (worker_id : Nat) (direction_vector : Int × Int) : MatrixWorker :=
  { id := worker_id
    text := []
    x := 0
    y := 0
    dx := direction_vector.1
    dy := direction_vector.2
    cells := []
    state := WState.init }

/-- `MatrixWorker.increment_position`: advance by the direction vector; wrap
the out-of-bounds axis by modulo and re-randomize the orthogonal one. -/
def MatrixWorker.increment_position (w : MatrixWorker) (window_x_max window_y_max : Int)
    (g : Rng) : MatrixWorker × Rng :=
  let x := w.x + w.dx
  let y := w.y + w.dy
  if ¬ (0 ≤ y ∧ y ≤ window_y_max) then
    let (rx, g') := randint 0 window_x_max g
    ({ w with y := y % (window_y_max + 1), x := rx }, g')
  else if ¬ (0 ≤ x ∧ x ≤ window_x_max) then
    let (ry, g') := randint 0 window_y_max g
    ({ w with x := x % (window_x_max + 1), y := ry }, g')
  else
    ({ w with x := x, y := y }, g)

/-- `if self.cells: display.erase(self.cells.pop(0), self.id)` — drop and
erase the oldest occupied cell, if any. -/
def eraseOldest (w : MatrixWorker) (d : MatrixDisplay) : MatrixWorker × MatrixDisplay :=
  match w.cells with
  | [] => (w, d)
  | c :: rest => ({ w with cells := rest }, d.erase c w.id)

/-- `if self.cells: display.erase(self.cells.pop(), self.id)` — drop and
erase the newest occupied cell, if any. -/
def eraseNewest (w : MatrixWorker) (d : MatrixDisplay) : MatrixWorker × MatrixDisplay :=
  match w.cells.getLast? with
  | none => (w, d)
  | some c => ({ w with cells := w.cells.dropLast }, d.erase c w.id)

/-- The `'init'` branch of `MatrixWorker.step`: sample a corpus string, keep
its characters with `32 < ord(char) < 127` in order, respawn at a random
position, clear the cell list, and fall through to `'write'`.  `none` models
the `IndexError` of `random.choice` on an empty corpus. -/
def MatrixWorker.stepInit (w : MatrixWorker) (lines : List String) (height width : Int)
    (g : Rng) : Option (MatrixWorker × Rng) :=
  match choice lines g with
  | none => none
  | some (s, g) =>
      let text := s.toList.filter (fun ch => 32 < ch.toNat && ch.toNat < 127)
      let (ry, g) := randint 0 (height - 2) g
      let (rx, g) := randint 0 (width - 1) g
      some ({ w with text := text, y := ry, x := rx, cells := [], state := WState.write }, g)

/-- The `'write'` branch of `MatrixWorker.step`: pop and write the next glyph
at the current position, append the position to the cell list, advance, and
trim the oldest cell once the list exceeds `MAX_LEN`; with an empty queue,
fall through to `'erase'`. -/
def MatrixWorker.stepWrite (w : MatrixWorker) (d : MatrixDisplay) (height width : Int)
    (g : Rng) : MatrixWorker × MatrixDisplay × Rng :=
  match w.text with
  | [] => ({ w with state := WState.erase }, d, g)
  | ch :: rest =>
      let d := d.write ch (w.y, w.x) w.id
      let w := { w with text := rest, cells := w.cells ++ [(w.y, w.x)] }
      let (w, g) := w.increment_position (width - 1) (height - 2) g
      if w.cells.length > d.MAX_LEN then
        match w.cells with
        | [] => (w, d, g)
        | c :: rest2 => ({ w with cells := rest2 }, d.erase c w.id, g)
      else (w, d, g)

/-- The `'erase'` branch of `MatrixWorker.step`: shed the oldest cell; once
the list is empty, go back to `'init'` for the next step. -/
def MatrixWorker.stepErase (w : MatrixWorker) (d : MatrixDisplay) :
    MatrixWorker × MatrixDisplay :=
  let (w, d) := eraseOldest w d
  if w.cells.isEmpty then ({ w with state := WState.init }, d) else (w, d)

/-- The `'exit'` branch of `MatrixWorker.step`: shed up to two cells from the
oldest end and one from the newest end; the state is never changed. -/
def MatrixWorker.stepExit (w : MatrixWorker) (d : MatrixDisplay) :
    MatrixWorker × MatrixDisplay :=
  let (w, d) := eraseOldest w d
  let (w, d) := eraseOldest w d
  eraseNewest w d

/-- `MatrixWorker.step`: the four state branches tested in sequence, so a
state change made by an earlier branch falls through to the next one within
the same invocation.  `height`/`width` stand for `screen.getmaxyx()`. -/
def MatrixWorker.step (w : MatrixWorker) (d : MatrixDisplay) (height width : Int)
    (g : Rng) : Option (MatrixWorker × MatrixDisplay × Rng) :=
  match (if w.state = WState.init then w.stepInit d.lines height width g else some (w, g)) with
  | none => none
  | some (w, g) =>
      let (w, d, g) := if w.state = WState.write then w.stepWrite d height width g else (w, d, g)
      let (w, d) := if w.state = WState.erase then w.stepErase d else (w, d)
      let (w, d) := if w.state = WState.exit then w.stepExit d else (w, d)
      some (w, d, g)

/-! ### Basic dictionary lemmas -/

theorem dictGet_dictSet_self (m : CellMap) (k : Cell) (v : Nat × Char) :
    dictGet (dictSet m k v) k = some v := by
  simp [dictGet, dictSet, List.find?]

theorem find?_filter_ne (m : CellMap) (k : Cell) :
    (m.filter (fun e => e.1 ≠ k)).find? (fun e => e.1 = k) = none := by
  induction m with
  | nil => simp
  | cons e t ih =>
      by_cases h : e.1 = k
      · simp only [List.filter, h]
        simpa [h] using ih
      · simp only [List.filter, h]
        simpa [List.find?, h] using ih

theorem dictGet_dictDel_self (m : CellMap) (k : Cell) :
    dictGet (dictDel m k) k = none := by
  simp [dictGet, dictDel, find?_filter_ne]

theorem mem_of_mem_dictDel {m : CellMap} {k : Cell} {e : Cell × Nat × Char}
    (h : e ∈ dictDel m k) : e ∈ m := by
  exact List.mem_of_mem_filter h

theorem not_mem_dictDel_self {m : CellMap} {k : Cell} {o : Nat} {v : Char} :
    (k, o, v) ∉ dictDel m k := by
  intro h
  have := List.of_mem_filter h
  simp at this

/-- With pairwise-distinct keys, membership determines the lookup result. -/
theorem dictGet_of_mem_of_nodup {m : CellMap} {k : Cell} {o : Nat} {v : Char}
    (hnd : keysNodup m) (h : (k, o, v) ∈ m) : dictGet m k = some (o, v) := by
  induction m with
  | nil => cases h
  | cons e t ih =>
      rcases List.mem_cons.mp h with h | h
      · subst h
        simp [dictGet, List.find?]
      · have hk : e.1 ≠ k := by
          intro hek
          have hmem : k ∈ t.map (fun e => e.1) := by
            exact List.mem_map.mpr ⟨(k, o, v), h, rfl⟩
          have hnd' := (List.nodup_cons.mp hnd).1
          exact hnd' (by simpa [hek] using hmem)
        have hnd' : keysNodup t := (List.nodup_cons.mp hnd).2
        have := ih hnd' h
        simpa [dictGet, List.find?, hk] using this

theorem keysNodup_dictDel {m : CellMap} (k : Cell) (hnd : keysNodup m) :
    keysNodup (dictDel m k) := by
  unfold keysNodup dictDel
  exact List.Nodup.sublist ((List.filter_sublist m).map _) hnd

theorem keysNodup_dictSet {m : CellMap} (k : Cell) (v : Nat × Char) (hnd : keysNodup m) :
    keysNodup (dictSet m k v) := by
  unfold keysNodup dictSet
  refine List.nodup_cons.mpr ⟨?_, ?_⟩
  · intro hmem
    rcases List.mem_map.mp hmem with ⟨e, he, hek⟩
    have := List.of_mem_filter he
    simp [hek] at this
  · exact List.Nodup.sublist ((List.filter_sublist m).map _) hnd

/-! ### Grid operation sequences -/

/-- The three grid operations an actor or the scheduler can perform on the
display bookkeeping. -/
inductive GridOp where
  | write (value : Char) (cell : Cell) (worker_id : Nat)
  | erase (cell : Cell) (worker_id : Nat)
  | refresh

/-- Run one grid operation. -/
def applyOp (d : MatrixDisplay) : GridOp → MatrixDisplay
  | GridOp.write v c i => d.write v c i
  | GridOp.erase c i => d.erase c i
  | GridOp.refresh => d.refresh

/-- Run a sequence of grid operations. -/
def applyOps (d : MatrixDisplay) (ops : List GridOp) : MatrixDisplay :=
  ops.foldl applyOp d

theorem disjoint_applyOp (d : MatrixDisplay) (op : GridOp)
    (h : Disjoint d.recent_additions d.recent_removals) :
    Disjoint (applyOp d op).recent_additions (applyOp d op).recent_removals := by
  cases op with
  | write v c i =>
      simp only [applyOp, MatrixDisplay.write]
      rw [Finset.disjoint_left] at h ⊢
      intro a ha hr
      rcases Finset.mem_insert.mp ha with rfl | ha
      · exact (Finset.not_mem_erase a _) hr
      · exact h ha (Finset.mem_of_mem_erase hr)
  | erase c i =>
      simp only [applyOp]
      unfold MatrixDisplay.erase
      cases hg : dictGet d.cells c with
      | none => exact h
      | some p =>
          obtain ⟨o, v⟩ := p
          dsimp only
          by_cases hw : i = o
          · rw [if_pos hw]
            rw [Finset.disjoint_left] at h ⊢
            intro a ha hr
            rcases Finset.mem_insert.mp hr with rfl | hr
            · exact (Finset.not_mem_erase a _) ha
            · exact h (Finset.mem_of_mem_erase ha) hr
          · rw [if_neg hw]
            exact h
  | refresh =>
      simp [applyOp, MatrixDisplay.refresh]

theorem disjoint_applyOps (ops : List GridOp) (d : MatrixDisplay)
    (h : Disjoint d.recent_additions d.recent_removals) :
    Disjoint (applyOps d ops).recent_additions (applyOps d ops).recent_removals := by
  induction ops generalizing d with
  | nil => exact h
  | cons op t ih =>
      exact ih (applyOp d op) (disjoint_applyOp d op h)

/-- C4: in every grid state reachable from a fresh display through any
sequence of `write`, `erase` and `refresh` operations, the pending-additions
set and the pending-removals set are disjoint: a cell present in one is
absent from the other. -/
theorem pending_sets_disjoint (lines : List String) (ops : List GridOp) :
    Disjoint (applyOps (MatrixDisplay.new lines) ops).recent_additions
      (applyOps (MatrixDisplay.new lines) ops).recent_removals :=
  disjoint_applyOps ops (MatrixDisplay.new lines) (by simp [MatrixDisplay.new])

/-- C1: `erase(cell, actorId)` is a silent no-op — the whole display state,
in particular the occupancy map and both pending sets, is left unchanged —
whenever the cell is vacant or occupied by a different actor, and repeating
the call with such a wrong identifier any number of times never mutates
anything; so `erase` changes state only when the caller owns the cell. -/
theorem erase_nonowner_noop (d : MatrixDisplay) (cell : Cell) (worker_id : Nat)
    (h : ∀ o v, dictGet d.cells cell = some (o, v) → o ≠ worker_id) :
    d.erase cell worker_id = d ∧
    ∀ n : Nat, (fun x => MatrixDisplay.erase x cell worker_id)^[n] d = d := by
  have h1 : d.erase cell worker_id = d := by
    unfold MatrixDisplay.erase
    cases hg : dictGet d.cells cell with
    | none => rfl
    | some p =>
        obtain ⟨o, v⟩ := p
        dsimp only
        rw [if_neg (Ne.symm (h o v hg))]
  refine ⟨h1, ?_⟩
  intro n
  induction n with
  | zero => rfl
  | succ n ih =>
      rw [Function.iterate_succ_apply', ih, h1]

/-- A display whose only occupant of `(0, 0)` is actor `1`. -/
def displayOwnedByOne : MatrixDisplay :=
  { lines := []
    cells := [((0, 0), 1, 'X')]
    recent_additions := ∅
    recent_removals := ∅
    MAX_LEN := 30 }

/-- Witness for C1: erasing `(0, 0)` with the wrong identifier `2`, once or
five times, leaves the display untouched. -/
theorem erase_nonowner_noop_witness :
    displayOwnedByOne.erase (0, 0) 2 = displayOwnedByOne ∧
    (fun x => MatrixDisplay.erase x (0, 0) 2)^[5] displayOwnedByOne = displayOwnedByOne := by
  have h : ∀ o v, dictGet displayOwnedByOne.cells (0, 0) = some (o, v) → o ≠ 2 := by
    intro o v hov
    rw [show dictGet displayOwnedByOne.cells (0, 0) = some (1, 'X') by decide] at hov
    simp only [Option.some.injEq, Prod.mk.injEq] at hov
    obtain ⟨h1, _⟩ := hov
    omega
  exact ⟨(erase_nonowner_noop displayOwnedByOne (0, 0) 2 h).1,
    (erase_nonowner_noop displayOwnedByOne (0, 0) 2 h).2 5⟩

/-- C2: `write(glyph, cell, actorId)` unconditionally installs
`(actorId, glyph)` as the occupancy entry of `cell` — whatever entry was
there before, for any prior owner — and afterwards `cell` is in the
pending-additions set and not in the pending-removals set. -/
theorem write_unconditional (d : MatrixDisplay) (value : Char) (cell : Cell)
    (worker_id : Nat) :
    dictGet (d.write value cell worker_id).cells cell = some (worker_id, value) ∧
    cell ∈ (d.write value cell worker_id).recent_additions ∧
    cell ∉ (d.write value cell worker_id).recent_removals := by
  refine ⟨?_, ?_, ?_⟩
  · simpa [MatrixDisplay.write] using dictGet_dictSet_self d.cells cell (worker_id, value)
  · simp [MatrixDisplay.write]
  · simp [MatrixDisplay.write]

/-! ### Position advance and wrap -/

theorem increment_position_wrapY (w : MatrixWorker) (a b : Int) (g : Rng)
    (hcond : ¬ (0 ≤ w.y + w.dy ∧ w.y + w.dy ≤ b)) :
    w.increment_position a b g =
      ({ w with y := (w.y + w.dy) % (b + 1), x := (g.seq g.idx : Int) % (a + 1) }, g.next) := by
  unfold MatrixWorker.increment_position
  rw [if_pos hcond]
  simp [randint]

theorem increment_position_noWrap (w : MatrixWorker) (a b : Int) (g : Rng)
    (h1 : 0 ≤ w.y + w.dy ∧ w.y + w.dy ≤ b) (h2 : 0 ≤ w.x + w.dx ∧ w.x + w.dx ≤ a) :
    w.increment_position a b g = ({ w with x := w.x + w.dx, y := w.y + w.dy }, g) := by
  unfold MatrixWorker.increment_position
  rw [if_neg (not_not_intro h1), if_neg (not_not_intro h2)]

theorem increment_position_wrapX (w : MatrixWorker) (a b : Int) (g : Rng)
    (h1 : 0 ≤ w.y + w.dy ∧ w.y + w.dy ≤ b)
    (hcond : ¬ (0 ≤ w.x + w.dx ∧ w.x + w.dx ≤ a)) :
    w.increment_position a b g =
      ({ w with x := (w.x + w.dx) % (a + 1), y := (g.seq g.idx : Int) % (b + 1) }, g.next) := by
  unfold MatrixWorker.increment_position
  rw [if_neg (not_not_intro h1), if_pos hcond]
  simp [randint]

/-- The varying axis lands in `[0, window_y_max]` after every advance,
whichever branch is taken. -/
theorem increment_position_y_bounds (w : MatrixWorker) (a b : Int) (g : Rng) (hb : 0 ≤ b) :
    0 ≤ ((w.increment_position a b g).1).y ∧ ((w.increment_position a b g).1).y ≤ b := by
  have hb1 : (0 : Int) < b + 1 := by omega
  by_cases hy : 0 ≤ w.y + w.dy ∧ w.y + w.dy ≤ b
  · by_cases hx : 0 ≤ w.x + w.dx ∧ w.x + w.dx ≤ a
    · rw [increment_position_noWrap w a b g hy hx]
      exact hy
    · rw [increment_position_wrapX w a b g hy hx]
      have h0 := Int.emod_nonneg ((g.seq g.idx : Int)) (by omega : (b : Int) + 1 ≠ 0)
      have h1 := Int.emod_lt_of_pos ((g.seq g.idx : Int)) hb1
      constructor <;> simp <;> omega
  · rw [increment_position_wrapY w a b g hy]
    have h0 := Int.emod_nonneg (w.y + w.dy) (by omega : (b : Int) + 1 ≠ 0)
    have h1 := Int.emod_lt_of_pos (w.y + w.dy) hb1
    constructor <;> simp <;> omega

/-- Position advance never touches the queue, the cell list, the identity,
the state or the direction vector. -/
theorem increment_position_preserves (w : MatrixWorker) (a b : Int) (g : Rng) :
    ((w.increment_position a b g).1).cells = w.cells ∧
    ((w.increment_position a b g).1).id = w.id ∧
    ((w.increment_position a b g).1).state = w.state ∧
    ((w.increment_position a b g).1).text = w.text ∧
    ((w.increment_position a b g).1).dx = w.dx ∧
    ((w.increment_position a b g).1).dy = w.dy := by
  by_cases hy : 0 ≤ w.y + w.dy ∧ w.y + w.dy ≤ b
  · by_cases hx : 0 ≤ w.x + w.dx ∧ w.x + w.dx ≤ a
    · rw [increment_position_noWrap w a b g hy hx]
      exact ⟨rfl, rfl, rfl, rfl, rfl, rfl⟩
    · rw [increment_position_wrapX w a b g hy hx]
      exact ⟨rfl, rfl, rfl, rfl, rfl, rfl⟩
  · rw [increment_position_wrapY w a b g hy]
    exact ⟨rfl, rfl, rfl, rfl, rfl, rfl⟩

/-- C6: with direction vector `(0, 1)` (row advances, column fixed), an actor
on the last valid row `height - 2` wraps on a single advance: the row becomes
`(height - 1) % (height - 1) = 0` — modulo against the row-axis size — and the
column is re-sampled within `[0, width - 1]` (every column in that range is
attainable for a suitable draw); when instead the advanced row is still in
bounds and the column is in bounds, nothing but the row changes and no random
draw is consumed — only the axis the direction vector moves is adjusted. -/
theorem wrap_row_and_resample_column (w : MatrixWorker) (height width : Int) (g : Rng)
    (hdx : w.dx = 0) (hdy : w.dy = 1) (hy : w.y = height - 2)
    (hh : 2 ≤ height) (hw : 1 ≤ width) :
    ((w.increment_position (width - 1) (height - 2) g).1).y = 0 ∧
    ((w.increment_position (width - 1) (height - 2) g).1).x = (g.seq g.idx : Int) % width ∧
    (0 ≤ ((w.increment_position (width - 1) (height - 2) g).1).x ∧
      ((w.increment_position (width - 1) (height - 2) g).1).x ≤ width - 1) ∧
    (∀ t : Int, 0 ≤ t → t ≤ width - 1 →
      ((w.increment_position (width - 1) (height - 2) (⟨fun _ => t.toNat, 0⟩ : Rng)).1).x = t) ∧
    (∀ w₂ : MatrixWorker, w₂.dx = 0 → w₂.dy = 1 →
      0 ≤ w₂.y + 1 → w₂.y + 1 ≤ height - 2 → 0 ≤ w₂.x → w₂.x ≤ width - 1 →
      w₂.increment_position (width - 1) (height - 2) g = ({ w₂ with y := w₂.y + 1 }, g)) := by
  have hcond : ¬ (0 ≤ w.y + w.dy ∧ w.y + w.dy ≤ height - 2) := by
    rw [hdy, hy]; omega
  have hwrap := increment_position_wrapY w (width - 1) (height - 2) g hcond
  have hx : (width : Int) - 1 + 1 = width := by omega
  refine ⟨?_, ?_, ?_, ?_, ?_⟩
  · rw [hwrap]
    simp only [hdy, hy]
    rw [show height - 2 + 1 = height - 1 by omega]
    exact Int.emod_self
  · rw [hwrap]
    simp only [hx]
  · rw [hwrap]
    simp only [hx]
    have h0 := Int.emod_nonneg ((g.seq g.idx : Int)) (by omega : (width : Int) ≠ 0)
    have h1 := Int.emod_lt_of_pos ((g.seq g.idx : Int)) (by omega : (0 : Int) < width)
    exact ⟨h0, by omega⟩
  · intro t ht0 ht1
    have hwrap' := increment_position_wrapY w (width - 1) (height - 2)
      (⟨fun _ => t.toNat, 0⟩ : Rng) hcond
    rw [hwrap']
    simp only [hx]
    have : ((t.toNat : Int)) = t := Int.toNat_of_nonneg ht0
    simp [this]
    exact Int.emod_eq_of_lt ht0 (by omega)
  · intro w₂ h2dx h2dy hy0 hy1 hx0 hx1
    have := increment_position_noWrap w₂ (width - 1) (height - 2) g
      (by rw [h2dy]; exact ⟨hy0, hy1⟩) (by rw [h2dx]; simpa using ⟨hx0, hx1⟩)
    rw [this]
    simp [h2dx, h2dy]

/-- A worker at the last valid row (3) of a 5-row grid, direction `(0, 1)`. -/
def wrapWorker : MatrixWorker :=
  { id := 0, text := [], x := 2, y := 3, dx := 0, dy := 1, cells := [], state := WState.write }

/-- A random stream that always draws 7. -/
def wrapRng : Rng := ⟨fun _ => 7, 0⟩

/-- Witness for C6: on a 5-row, 10-column grid, the worker at row 3 wraps to
row 0, and with a draw of 7 the column is re-sampled to 7. -/
theorem wrap_row_and_resample_column_witness :
    ((wrapWorker.increment_position (10 - 1) (5 - 2) wrapRng).1).y = 0 ∧
    ((wrapWorker.increment_position (10 - 1) (5 - 2) wrapRng).1).x = 7 := by
  have h := wrap_row_and_resample_column wrapWorker 5 10 wrapRng rfl rfl (by decide)
    (by decide) (by decide)
  exact ⟨h.1, by rw [h.2.1]; decide⟩

/-! ### Field-preservation lemmas for the display operations -/

theorem erase_MAX_LEN (d : MatrixDisplay) (c : Cell) (i : Nat) :
    (d.erase c i).MAX_LEN = d.MAX_LEN := by
  unfold MatrixDisplay.erase
  rcases hg : dictGet d.cells c with _ | ⟨o, v⟩
  · rfl
  · dsimp only
    split <;> rfl

theorem erase_lines (d : MatrixDisplay) (c : Cell) (i : Nat) :
    (d.erase c i).lines = d.lines := by
  unfold MatrixDisplay.erase
  rcases hg : dictGet d.cells c with _ | ⟨o, v⟩
  · rfl
  · dsimp only
    split <;> rfl

/-- Entries only disappear under `erase`; none are added or changed. -/
theorem mem_erase_cells {d : MatrixDisplay} {c : Cell} {i : Nat} {e : Cell × Nat × Char}
    (h : e ∈ (d.erase c i).cells) : e ∈ d.cells := by
  unfold MatrixDisplay.erase at h
  rcases hg : dictGet d.cells c with _ | ⟨o, v⟩ <;> rw [hg] at h
  · exact h
  · dsimp only at h
    split at h
    · exact mem_of_mem_dictDel h
    · exact h

theorem keysNodup_erase {d : MatrixDisplay} (c : Cell) (i : Nat)
    (hnd : keysNodup d.cells) : keysNodup (d.erase c i).cells := by
  unfold MatrixDisplay.erase
  rcases hg : dictGet d.cells c with _ | ⟨o, v⟩
  · exact hnd
  · dsimp only
    split
    · exact keysNodup_dictDel c hnd
    · exact hnd

/-- When the caller owns an entry at the erased cell, that entry is gone. -/
theorem erase_removes_owned {d : MatrixDisplay} {c : Cell} {i o : Nat} {v : Char}
    (hnd : keysNodup d.cells) (hmem : (c, o, v) ∈ d.cells) (ho : o = i) :
    (c, o, v) ∉ (d.erase c i).cells := by
  have hg := dictGet_of_mem_of_nodup hnd hmem
  unfold MatrixDisplay.erase
  rw [hg]
  dsimp only
  rw [if_pos ho.symm]
  exact not_mem_dictDel_self

/-- Entries owned by someone other than the caller always survive `erase`. -/
theorem erase_keeps_other_owner {d : MatrixDisplay} {c c₀ : Cell} {i o : Nat} {v : Char}
    (hnd : keysNodup d.cells) (hmem : (c₀, o, v) ∈ d.cells) (ho : o ≠ i) :
    (c₀, o, v) ∈ (d.erase c i).cells := by
  unfold MatrixDisplay.erase
  rcases hg : dictGet d.cells c with _ | ⟨o', v'⟩
  · exact hmem
  · dsimp only
    by_cases hio : i = o'
    · rw [if_pos hio]
      apply List.mem_filter.mpr
      refine ⟨hmem, ?_⟩
      simp only [decide_eq_true_eq]
      intro hcc
      subst hcc
      have := dictGet_of_mem_of_nodup hnd hmem
      rw [hg] at this
      simp only [Option.some.injEq, Prod.mk.injEq] at this
      exact ho (by omega)
    · rw [if_neg hio]
      exact hmem

/-! ### Specifications of the cell-shedding helpers -/

theorem tail_tail_eq_drop_min_two (l : List Cell) :
    l.tail.tail = l.drop (min 2 l.length) := by
  rcases l with _ | ⟨a, _ | ⟨b, t⟩⟩
  · simp
  · simp
  · have hmin : min 2 (a :: b :: t).length = 2 := by simp
    rw [hmin]
    rfl

theorem eraseOldest_spec (w : MatrixWorker) (d : MatrixDisplay) :
    ((eraseOldest w d).1).cells = w.cells.tail ∧
    ((eraseOldest w d).1).state = w.state ∧
    ((eraseOldest w d).1).id = w.id ∧
    ((eraseOldest w d).2).MAX_LEN = d.MAX_LEN ∧
    ((eraseOldest w d).2).lines = d.lines := by
  unfold eraseOldest
  rcases hc : w.cells with _ | ⟨c, rest⟩
  · dsimp only
    exact ⟨by simp [hc], rfl, rfl, rfl, rfl⟩
  · dsimp only
    exact ⟨rfl, rfl, rfl, erase_MAX_LEN d c w.id, erase_lines d c w.id⟩

theorem eraseNewest_spec (w : MatrixWorker) (d : MatrixDisplay) :
    ((eraseNewest w d).1).cells = w.cells.dropLast ∧
    ((eraseNewest w d).1).state = w.state ∧
    ((eraseNewest w d).1).id = w.id ∧
    ((eraseNewest w d).2).MAX_LEN = d.MAX_LEN ∧
    ((eraseNewest w d).2).lines = d.lines := by
  unfold eraseNewest
  rcases hl : w.cells.getLast? with _ | c
  · dsimp only
    have : w.cells = [] := by
      rcases List.eq_nil_or_concat w.cells with h | ⟨L, b, h⟩
      · exact h
      · rw [h, List.concat_eq_append, List.getLast?_concat] at hl
        cases hl
    exact ⟨by simp [this], rfl, rfl, rfl, rfl⟩
  · dsimp only
    exact ⟨rfl, rfl, rfl, erase_MAX_LEN d c w.id, erase_lines d c w.id⟩

theorem stepExit_spec (w : MatrixWorker) (d : MatrixDisplay) :
    ((w.stepExit d).1).cells = (w.cells.drop (min 2 w.cells.length)).dropLast ∧
    ((w.stepExit d).1).state = w.state ∧
    ((w.stepExit d).1).id = w.id ∧
    ((w.stepExit d).2).MAX_LEN = d.MAX_LEN ∧
    ((w.stepExit d).2).lines = d.lines := by
  unfold MatrixWorker.stepExit
  rcases h1 : eraseOldest w d with ⟨w1, d1⟩
  rcases h2 : eraseOldest w1 d1 with ⟨w2, d2⟩
  have s1 := eraseOldest_spec w d
  rw [h1] at s1
  have s2 := eraseOldest_spec w1 d1
  rw [h2] at s2
  have s3 := eraseNewest_spec w2 d2
  dsimp only at s1 s2 s3 ⊢
  rw [h2]
  dsimp only
  have hcells : w2.cells = w.cells.tail.tail := by rw [s2.1, s1.1]
  refine ⟨?_, ?_, ?_, ?_, ?_⟩
  · rw [s3.1, hcells, tail_tail_eq_drop_min_two]
  · rw [s3.2.1, s2.2.1, s1.2.1]
  · rw [s3.2.2.1, s2.2.2.1, s1.2.2.1]
  · rw [s3.2.2.2.1, s2.2.2.2.1, s1.2.2.2.1]
  · rw [s3.2.2.2.2, s2.2.2.2.2, s1.2.2.2.2]

/-! ### Step-phase lemmas -/

/-- `random.choice` fails exactly on an empty corpus. -/
theorem choice_eq_none_iff (xs : List String) (g : Rng) :
    choice xs g = none ↔ xs = [] := by
  unfold choice
  rcases xs with _ | ⟨s, t⟩
  · simp
  · simp only [Option.map_eq_none']
    constructor
    · intro h
      have hlt : g.seq g.idx % (s :: t).length < (s :: t).length :=
        Nat.mod_lt _ (by simp)
      rw [List.get?_eq_none] at h
      omega
    · intro h
      cases h

/-- Full evaluation of the `'init'` branch on a non-empty corpus: the queue is
the sampled string filtered to characters with `32 < ord < 127`, the spawn row
and column are drawn by `randint`, the cell list is cleared, and the state
falls to `'write'`. -/
theorem stepInit_eq (w : MatrixWorker) (lines : List String) (height width : Int)
    (g : Rng) (s : String) (hs : lines.get? (g.seq g.idx % lines.length) = some s) :
    w.stepInit lines height width g =
      some ({ w with
        text := s.toList.filter (fun ch => 32 < ch.toNat && ch.toNat < 127)
        y := (g.seq (g.idx + 1) : Int) % (height - 2 + 1)
        x := (g.seq (g.idx + 2) : Int) % (width - 1 + 1)
        cells := []
        state := WState.write }, (⟨g.seq, g.idx + 3⟩ : Rng)) := by
  unfold MatrixWorker.stepInit choice
  rw [hs]
  simp only [Option.map_some']
  simp [randint, Rng.next]

theorem stepErase_len (w : MatrixWorker) (d : MatrixDisplay) :
    ((w.stepErase d).1).cells.length ≤ w.cells.length ∧
    ((w.stepErase d).2).MAX_LEN = d.MAX_LEN := by
  unfold MatrixWorker.stepErase
  rcases h1 : eraseOldest w d with ⟨w1, d1⟩
  have s1 := eraseOldest_spec w d
  rw [h1] at s1
  dsimp only at s1 ⊢
  have hlen : w1.cells.length ≤ w.cells.length := by
    rw [s1.1]
    rcases w.cells with _ | ⟨c, rest⟩ <;> simp
  split
  · exact ⟨hlen, s1.2.2.2.1⟩
  · exact ⟨hlen, s1.2.2.2.1⟩

theorem stepExit_len (w : MatrixWorker) (d : MatrixDisplay) :
    ((w.stepExit d).1).cells.length ≤ w.cells.length ∧
    (w.cells ≠ [] → ((w.stepExit d).1).cells.length < w.cells.length) ∧
    ((w.stepExit d).2).MAX_LEN = d.MAX_LEN := by
  obtain ⟨hc, _, _, hM, _⟩ := stepExit_spec w d
  rw [hc]
  refine ⟨?_, ?_, hM⟩
  · simp [List.length_dropLast, List.length_drop]
    omega
  · intro hne
    have hpos : 0 < w.cells.length := List.length_pos.mpr hne
    simp [List.length_dropLast, List.length_drop]
    omega

theorem stepWrite_len (w : MatrixWorker) (d : MatrixDisplay) (height width : Int) (g : Rng)
    (h : w.cells.length ≤ d.MAX_LEN) :
    ((w.stepWrite d height width g).1).cells.length ≤
      ((w.stepWrite d height width g).2.1).MAX_LEN ∧
    ((w.stepWrite d height width g).2.1).MAX_LEN = d.MAX_LEN := by
  unfold MatrixWorker.stepWrite
  rcases htext : w.text with _ | ⟨ch, rest⟩
  · exact ⟨h, rfl⟩
  · dsimp only
    rcases hinc : MatrixWorker.increment_position
        { w with text := rest, cells := w.cells ++ [(w.y, w.x)] }
        (width - 1) (height - 2) g with ⟨w2, g2⟩
    have hpres := increment_position_preserves
      { w with text := rest, cells := w.cells ++ [(w.y, w.x)] } (width - 1) (height - 2) g
    rw [hinc] at hpres
    dsimp only at hpres
    have hc2 : w2.cells = w.cells ++ [(w.y, w.x)] := hpres.1
    have hlen2 : w2.cells.length = w.cells.length + 1 := by rw [hc2]; simp
    dsimp only
    by_cases hgt : w2.cells.length > (d.write ch (w.y, w.x) w.id).MAX_LEN
    · rw [if_pos hgt]
      rcases hcc : w2.cells with _ | ⟨c, rest2⟩
      · rw [hcc] at hlen2
        simp at hlen2
      · dsimp only
        have hMw : (d.write ch (w.y, w.x) w.id).MAX_LEN = d.MAX_LEN := rfl
        have hlenr : rest2.length + 1 = w.cells.length + 1 := by
          rw [← hlen2, hcc]
          simp
        rw [erase_MAX_LEN, hMw]
        constructor
        · omega
        · rfl
    · rw [if_neg hgt]
      dsimp only
      have hMw : (d.write ch (w.y, w.x) w.id).MAX_LEN = d.MAX_LEN := rfl
      rw [hMw] at hgt ⊢
      exact ⟨by omega, rfl⟩

theorem stepInit_some_cells_nil {w : MatrixWorker} {lines : List String}
    {height width : Int} {g : Rng} {w₁ : MatrixWorker} {g₁ : Rng}
    (h : w.stepInit lines height width g = some (w₁, g₁)) :
    w₁.cells = [] ∧ w₁.state = WState.write := by
  unfold MatrixWorker.stepInit at h
  rcases hc : choice lines g with _ | ⟨s, g'⟩ <;> rw [hc] at h
  · cases h
  · simp only [randint, Option.some.injEq, Prod.mk.injEq] at h
    obtain ⟨hw, _⟩ := h
    rw [← hw]
    exact ⟨rfl, rfl⟩

/-- C5: one scheduler invocation of an actor's `step` keeps the occupied-cell
list within the configured maximum: if the list respects `MAX_LEN` before the
step, it respects it after (the `Write` branch trims the oldest cell as soon
as the appended cell pushes the list over the maximum, and no branch grows it
otherwise); the configured maximum itself never changes. -/
theorem stream_length_invariant (w : MatrixWorker) (d : MatrixDisplay) (height width : Int)
    (g : Rng) (w' : MatrixWorker) (d' : MatrixDisplay) (g' : Rng)
    (hlen : w.cells.length ≤ d.MAX_LEN)
    (hstep : w.step d height width g = some (w', d', g')) :
    w'.cells.length ≤ d'.MAX_LEN ∧ d'.MAX_LEN = d.MAX_LEN := by
  unfold MatrixWorker.step at hstep
  rcases h0 : (if w.state = WState.init then w.stepInit d.lines height width g
      else some (w, g)) with _ | ⟨w1, g1⟩ <;> rw [h0] at hstep
  · cases hstep
  · dsimp only at hstep
    have hw1 : w1.cells.length ≤ d.MAX_LEN := by
      by_cases hst : w.state = WState.init
      · rw [if_pos hst] at h0
        rw [(stepInit_some_cells_nil h0).1]
        simp
      · rw [if_neg hst] at h0
        simp only [Option.some.injEq, Prod.mk.injEq] at h0
        rw [← h0.1]
        exact hlen
    rcases h2 : (if w1.state = WState.write then w1.stepWrite d height width g1
        else (w1, d, g1)) with ⟨w2, d2, g2⟩
    rw [h2] at hstep
    dsimp only at hstep
    have hlen2 : w2.cells.length ≤ d2.MAX_LEN ∧ d2.MAX_LEN = d.MAX_LEN := by
      by_cases hst : w1.state = WState.write
      · rw [if_pos hst] at h2
        have hl := stepWrite_len w1 d height width g1 hw1
        rw [h2] at hl
        exact hl
      · rw [if_neg hst] at h2
        simp only [Prod.mk.injEq] at h2
        obtain ⟨e1, e2, _⟩ := h2
        rw [← e1, ← e2]
        exact ⟨hw1, rfl⟩
    rcases h3 : (if w2.state = WState.erase then w2.stepErase d2 else (w2, d2)) with ⟨w3, d3⟩
    rw [h3] at hstep
    dsimp only at hstep
    have hlen3 : w3.cells.length ≤ d3.MAX_LEN ∧ d3.MAX_LEN = d.MAX_LEN := by
      by_cases hst : w2.state = WState.erase
      · rw [if_pos hst] at h3
        have hl := stepErase_len w2 d2
        rw [h3] at hl
        dsimp only at hl
        rw [hl.2]
        exact ⟨le_trans hl.1 hlen2.1, hlen2.2⟩
      · rw [if_neg hst] at h3
        simp only [Prod.mk.injEq] at h3
        obtain ⟨e1, e2⟩ := h3
        rw [← e1, ← e2]
        exact hlen2
    rcases h4 : (if w3.state = WState.exit then w3.stepExit d3 else (w3, d3)) with ⟨w4, d4⟩
    rw [h4] at hstep
    dsimp only at hstep
    have hlen4 : w4.cells.length ≤ d4.MAX_LEN ∧ d4.MAX_LEN = d.MAX_LEN := by
      by_cases hst : w3.state = WState.exit
      · rw [if_pos hst] at h4
        have hl := stepExit_len w3 d3
        rw [h4] at hl
        dsimp only at hl
        rw [hl.2.2]
        exact ⟨le_trans hl.1 hlen3.1, hlen3.2⟩
      · rw [if_neg hst] at h4
        simp only [Prod.mk.injEq] at h4
        obtain ⟨e1, e2⟩ := h4
        rw [← e1, ← e2]
        exact hlen3
    simp only [Option.some.injEq, Prod.mk.injEq] at hstep
    obtain ⟨ew, ed, _⟩ := hstep
    rw [← ew, ← ed]
    exact hlen4

/-- A worker about to shed its last cell, for the C5 witness. -/
def c5worker : MatrixWorker :=
  { id := 0, text := [], x := 9, y := 9, dx := 0, dy := 1, cells := [(9, 9)],
    state := WState.erase }

/-- The state `c5worker` reaches after its erase step. -/
def c5res : MatrixWorker := { c5worker with cells := [], state := WState.init }

/-- Witness for C5: stepping `c5worker` (one cell, bound 30) on an empty
display keeps the list within the bound. -/
theorem stream_length_invariant_witness :
    c5worker.step (MatrixDisplay.new ["AB"]) 24 80 (⟨fun _ => 0, 0⟩ : Rng) =
      some (c5res, MatrixDisplay.new ["AB"], (⟨fun _ => 0, 0⟩ : Rng)) ∧
    c5res.cells.length ≤ (MatrixDisplay.new ["AB"]).MAX_LEN := by
  refine ⟨rfl, ?_⟩
  exact (stream_length_invariant c5worker (MatrixDisplay.new ["AB"]) 24 80
    (⟨fun _ => 0, 0⟩ : Rng) c5res (MatrixDisplay.new ["AB"]) (⟨fun _ => 0, 0⟩ : Rng)
    (by decide) rfl).1

/-! ### The literal scenario of the spec (claim C7) -/

/-- Scenario actor: spawned at row 0, column 3 with glyph queue "AB",
direction `(0, 1)`, already in the `Write` state. -/
def scenW0 : MatrixWorker :=
  { id := 0, text := ['A', 'B'], x := 3, y := 0, dx := 0, dy := 1, cells := [],
    state := WState.write }

/-- Scenario display: 5 rows × 10 columns grid (passed to `step` as
`height`/`width`), max stream length 3, empty occupancy. -/
def scenD0 : MatrixDisplay :=
  { lines := ["AB"], cells := [], recent_additions := ∅, recent_removals := ∅, MAX_LEN := 3 }

/-- The scenario consumes no random draws; any stream works. -/
def scenRng : Rng := ⟨fun _ => 0, 0⟩

/-- State after invocation 1. -/
def scenW1 : MatrixWorker :=
  { id := 0, text := ['B'], x := 3, y := 1, dx := 0, dy := 1, cells := [(0, 3)],
    state := WState.write }

def scenD1 : MatrixDisplay :=
  { lines := ["AB"], cells := [((0, 3), 0, 'A')], recent_additions := {(0, 3)},
    recent_removals := ∅, MAX_LEN := 3 }

/-- State after invocation 2. -/
def scenW2 : MatrixWorker :=
  { id := 0, text := [], x := 3, y := 2, dx := 0, dy := 1, cells := [(0, 3), (1, 3)],
    state := WState.write }

def scenD2 : MatrixDisplay :=
  { lines := ["AB"], cells := [((1, 3), 0, 'B'), ((0, 3), 0, 'A')],
    recent_additions := {(1, 3), (0, 3)}, recent_removals := ∅, MAX_LEN := 3 }

/-- State after invocation 3. -/
def scenW3 : MatrixWorker :=
  { id := 0, text := [], x := 3, y := 2, dx := 0, dy := 1, cells := [(1, 3)],
    state := WState.erase }

def scenD3 : MatrixDisplay :=
  { lines := ["AB"], cells := [((1, 3), 0, 'B')], recent_additions := {(1, 3)},
    recent_removals := {(0, 3)}, MAX_LEN := 3 }

/-- State after invocation 4. -/
def scenW4 : MatrixWorker :=
  { id := 0, text := [], x := 3, y := 2, dx := 0, dy := 1, cells := [],
    state := WState.init }

def scenD4 : MatrixDisplay :=
  { lines := ["AB"], cells := [], recent_additions := ∅,
    recent_removals := {(1, 3), (0, 3)}, MAX_LEN := 3 }

/-- C7: the spec's literal scenario.  On a 5 × 10 grid with max stream length
3 and direction `(0, 1)`, starting in `Write` at row 0, column 3 with queue
"AB": invocation 1 writes 'A' at `(0,3)`, the cell list becomes `[(0,3)]` and
the row advances to 1; invocation 2 writes 'B' at `(1,3)`, the list becomes
`[(0,3), (1,3)]` and the queue empties; invocation 3 transitions to `Erase`
and erases `(0,3)`, leaving `[(1,3)]`; invocation 4 erases `(1,3)`, empties
the list and transitions to `Init`. -/
theorem literal_scenario :
    (scenW0.step scenD0 5 10 scenRng).map (fun p => (p.1, p.2.1)) = some (scenW1, scenD1) ∧
    (scenW1.step scenD1 5 10 scenRng).map (fun p => (p.1, p.2.1)) = some (scenW2, scenD2) ∧
    (scenW2.step scenD2 5 10 scenRng).map (fun p => (p.1, p.2.1)) = some (scenW3, scenD3) ∧
    (scenW3.step scenD3 5 10 scenRng).map (fun p => (p.1, p.2.1)) = some (scenW4, scenD4) ∧
    scenW1.cells = [(0, 3)] ∧ scenW1.y = 1 ∧
    dictGet scenD1.cells (0, 3) = some (0, 'A') ∧
    scenW2.cells = [(0, 3), (1, 3)] ∧ scenW2.text = [] ∧
    dictGet scenD2.cells (1, 3) = some (0, 'B') ∧
    scenW3.state = WState.erase ∧ scenW3.cells = [(1, 3)] ∧
    dictGet scenD3.cells (0, 3) = none ∧
    scenW4.cells = [] ∧ scenW4.state = WState.init ∧
    dictGet scenD4.cells (1, 3) = none := by
  decide

/-! ### Init-branch behaviour (claims C8, C9) -/

/-- C8: at `Init` the glyph queue becomes exactly the sampled corpus string
filtered to its printable characters (`32 < ord < 127`) in order, the state
falls through to `Write` with an empty cell list; and when the filter leaves
nothing, the same invocation falls through `Write` into `Erase` (the `Write`
branch only flips the state) and ends with zero written cells and an
untouched display — a valid edge case, not an error. -/
theorem init_queue_filter (w : MatrixWorker) (lines : List String) (height width : Int)
    (g : Rng) (s : String)
    (hst : w.state = WState.init)
    (hs : lines.get? (g.seq g.idx % lines.length) = some s) :
    ∃ w₁ g₁, w.stepInit lines height width g = some (w₁, g₁) ∧
      w₁.text = s.toList.filter (fun ch => 32 < ch.toNat && ch.toNat < 127) ∧
      w₁.state = WState.write ∧ w₁.cells = [] ∧
      (w₁.text = [] → ∀ d : MatrixDisplay, d.lines = lines →
        w₁.stepWrite d height width g₁ = ({ w₁ with state := WState.erase }, d, g₁) ∧
        ∃ w', w.step d height width g = some (w', d, g₁) ∧
          w'.cells = [] ∧ w'.state = WState.init) := by
  refine ⟨_, _, stepInit_eq w lines height width g s hs, rfl, rfl, rfl, ?_⟩
  intro hempty d hdl
  have hsw : MatrixWorker.stepWrite
      { w with
        text := s.toList.filter (fun ch => 32 < ch.toNat && ch.toNat < 127)
        y := (g.seq (g.idx + 1) : Int) % (height - 2 + 1)
        x := (g.seq (g.idx + 2) : Int) % (width - 1 + 1)
        cells := []
        state := WState.write } d height width (⟨g.seq, g.idx + 3⟩ : Rng) =
      ({ w with
        text := s.toList.filter (fun ch => 32 < ch.toNat && ch.toNat < 127)
        y := (g.seq (g.idx + 1) : Int) % (height - 2 + 1)
        x := (g.seq (g.idx + 2) : Int) % (width - 1 + 1)
        cells := []
        state := WState.erase }, d, (⟨g.seq, g.idx + 3⟩ : Rng)) := by
    unfold MatrixWorker.stepWrite
    dsimp only at hempty ⊢
    rw [hempty]
  refine ⟨hsw, ?_⟩
  refine ⟨{ w with
      text := s.toList.filter (fun ch => 32 < ch.toNat && ch.toNat < 127)
      y := (g.seq (g.idx + 1) : Int) % (height - 2 + 1)
      x := (g.seq (g.idx + 2) : Int) % (width - 1 + 1)
      cells := []
      state := WState.init }, ?_, rfl, rfl⟩
  unfold MatrixWorker.step
  rw [if_pos hst, hdl, stepInit_eq w lines height width g s hs]
  dsimp only
  rw [if_pos rfl, hsw]
  dsimp only
  rfl

/-- A corpus line with no printable-ASCII character (a single tab). -/
def blankCorpus : List String := ["\t"]

/-- Witness for C8: from `Init` on the tab-only corpus the queue comes out
empty, and the whole step ends back at `Init` with no cells and the display
untouched. -/
theorem init_queue_filter_witness :
    ((MatrixWorker.new 0 (0, 1)).step (MatrixDisplay.new ["\t"]) 24 80
        (⟨fun _ => 0, 0⟩ : Rng)).map (fun p => (p.1.cells, p.1.state, p.2.1)) =
      some ([], WState.init, MatrixDisplay.new ["\t"]) := by
  obtain ⟨w₁, g₁, hinit, htext, hstate, hcells, hrest⟩ :=
    init_queue_filter (MatrixWorker.new 0 (0, 1)) blankCorpus 24 80
      (⟨fun _ => 0, 0⟩ : Rng) "\t" rfl (by decide)
  have htext' : w₁.text = [] := by rw [htext]; decide
  obtain ⟨hsw, w', hstep, hwc, hws⟩ := hrest htext' (MatrixDisplay.new ["\t"]) rfl
  rw [hstep]
  simp only [Option.map_some']
  rw [hwc, hws]

/-- C9 (as the code actually behaves): startup performs no corpus validation
— the constructor and `add_file` always succeed — and an empty corpus is
discovered only when an actor's `Init` branch runs inside the scheduling
loop, where `random.choice` fails on the empty list (the step returns
`none`).  There is no `ConfigurationError` raised before the loop. -/
theorem empty_corpus_fails_at_spawn (w : MatrixWorker) (d : MatrixDisplay)
    (height width : Int) (g : Rng)
    (hst : w.state = WState.init) (hl : d.lines = []) :
    w.step d height width g = none := by
  unfold MatrixWorker.step
  rw [if_pos hst]
  have hnone : w.stepInit d.lines height width g = none := by
    unfold MatrixWorker.stepInit
    rw [(choice_eq_none_iff d.lines g).mpr hl]
  rw [hnone]

/-- Witness for the amended C9: a fresh worker stepping against the
freshly-constructed empty-corpus display fails at spawn. -/
theorem empty_corpus_fails_at_spawn_witness :
    (MatrixWorker.new 3 (0, 1)).step (MatrixDisplay.new []) 24 80
      (⟨fun _ => 1, 0⟩ : Rng) = none :=
  empty_corpus_fails_at_spawn (MatrixWorker.new 3 (0, 1)) (MatrixDisplay.new [])
    24 80 (⟨fun _ => 1, 0⟩ : Rng) rfl rfl

/-- C9 counterexample: with an empty corpus, startup (the constructor
followed by `add_file` on a file with no usable lines) completes without any
error and produces a display that enters the loop, and the very first actor
spawn inside the loop is what fails — refuting "a ConfigurationError is
raised at startup, before entering the scheduling loop" and "an empty corpus
is never discovered mid-animation at actor spawn time". -/
theorem empty_corpus_startup_succeeds :
    (MatrixDisplay.new []).lines = [] ∧
    ((MatrixDisplay.new []).add_file []).lines = [] ∧
    (MatrixWorker.new 0 (0, 1)).step ((MatrixDisplay.new []).add_file []) 24 80
      (⟨fun _ => 0, 0⟩ : Rng) = none := by
  refine ⟨rfl, rfl, ?_⟩
  apply empty_corpus_fails_at_spawn
  · rfl
  · rfl

/-! ### Row-bound preservation (claim C10) -/

theorem eraseOldest_fst (w : MatrixWorker) (d : MatrixDisplay) :
    (eraseOldest w d).1 = { w with cells := w.cells.tail } := by
  obtain ⟨i, t, x, y, dx, dy, cells, st⟩ := w
  rcases cells with _ | ⟨c, rest⟩ <;> rfl

theorem eraseNewest_fst (w : MatrixWorker) (d : MatrixDisplay) :
    (eraseNewest w d).1 = { w with cells := w.cells.dropLast } := by
  obtain ⟨i, t, x, y, dx, dy, cells, st⟩ := w
  rcases List.eq_nil_or_concat cells with rfl | ⟨L, b, rfl⟩
  · rfl
  · unfold eraseNewest
    rw [List.concat_eq_append]
    dsimp only
    rw [List.getLast?_concat]

theorem mem_eraseOldest_cells {w : MatrixWorker} {d : MatrixDisplay} {e : Cell × Nat × Char}
    (h : e ∈ ((eraseOldest w d).2).cells) : e ∈ d.cells := by
  unfold eraseOldest at h
  rcases hc : w.cells with _ | ⟨c, rest⟩ <;> rw [hc] at h
  · exact h
  · exact mem_erase_cells h

theorem mem_eraseNewest_cells {w : MatrixWorker} {d : MatrixDisplay} {e : Cell × Nat × Char}
    (h : e ∈ ((eraseNewest w d).2).cells) : e ∈ d.cells := by
  unfold eraseNewest at h
  rcases hc : w.cells.getLast? with _ | c <;> rw [hc] at h
  · exact h
  · exact mem_erase_cells h

theorem stepErase_fst (w : MatrixWorker) (d : MatrixDisplay) :
    (w.stepErase d).1 = if w.cells.tail.isEmpty
      then { w with cells := w.cells.tail, state := WState.init }
      else { w with cells := w.cells.tail } := by
  unfold MatrixWorker.stepErase
  rcases h1 : eraseOldest w d with ⟨w1, d1⟩
  have f1 := eraseOldest_fst w d
  rw [h1] at f1
  dsimp only at f1 ⊢
  rw [f1]
  split <;> rfl

theorem mem_stepErase_cells {w : MatrixWorker} {d : MatrixDisplay} {e : Cell × Nat × Char}
    (h : e ∈ ((w.stepErase d).2).cells) : e ∈ d.cells := by
  unfold MatrixWorker.stepErase at h
  rcases h1 : eraseOldest w d with ⟨w1, d1⟩
  rw [h1] at h
  dsimp only at h
  have : ((w.stepErase d).2) = d1 := by
    unfold MatrixWorker.stepErase
    rw [h1]
    dsimp only
    split <;> rfl
  apply mem_eraseOldest_cells (w := w) (d := d)
  rw [h1]
  split at h <;> exact h

theorem stepExit_fst (w : MatrixWorker) (d : MatrixDisplay) :
    (w.stepExit d).1 = { w with cells := w.cells.tail.tail.dropLast } := by
  unfold MatrixWorker.stepExit
  rcases h1 : eraseOldest w d with ⟨w1, d1⟩
  have f1 := eraseOldest_fst w d
  rw [h1] at f1
  dsimp only at f1
  rcases h2 : eraseOldest w1 d1 with ⟨w2, d2⟩
  have f2 := eraseOldest_fst w1 d1
  rw [h2] at f2
  dsimp only at f2
  dsimp only
  rw [h2]
  dsimp only
  rw [eraseNewest_fst, f2, f1]

theorem mem_stepExit_cells {w : MatrixWorker} {d : MatrixDisplay} {e : Cell × Nat × Char}
    (h : e ∈ ((w.stepExit d).2).cells) : e ∈ d.cells := by
  unfold MatrixWorker.stepExit at h
  rcases h1 : eraseOldest w d with ⟨w1, d1⟩
  rw [h1] at h
  dsimp only at h
  rcases h2 : eraseOldest w1 d1 with ⟨w2, d2⟩
  rw [h2] at h
  dsimp only at h
  have hm2 : e ∈ d2.cells := mem_eraseNewest_cells h
  have hm1 : e ∈ d1.cells := by
    have := mem_eraseOldest_cells (w := w1) (d := d1) (e := e)
    rw [h2] at this
    exact this hm2
  have := mem_eraseOldest_cells (w := w) (d := d) (e := e)
  rw [h1] at this
  exact this hm1

theorem mem_write_cells {d : MatrixDisplay} {v : Char} {c : Cell} {i : Nat}
    {e : Cell × Nat × Char} (h : e ∈ (d.write v c i).cells) :
    e = (c, i, v) ∨ e ∈ d.cells := by
  unfold MatrixDisplay.write at h
  rcases List.mem_cons.mp h with h | h
  · exact Or.inl h
  · exact Or.inr (List.mem_of_mem_filter h)

theorem stepInit_y_bounds {w : MatrixWorker} {lines : List String} {height width : Int}
    {g : Rng} {w₁ : MatrixWorker} {g₁ : Rng} (hh : 2 ≤ height)
    (h : w.stepInit lines height width g = some (w₁, g₁)) :
    (0 ≤ w₁.y ∧ w₁.y ≤ height - 2) ∧ w₁.dx = w.dx ∧ w₁.dy = w.dy := by
  unfold MatrixWorker.stepInit at h
  rcases hc : choice lines g with _ | ⟨s, g'⟩ <;> rw [hc] at h
  · cases h
  · simp only [randint, Option.some.injEq, Prod.mk.injEq] at h
    obtain ⟨hw, _⟩ := h
    rw [← hw]
    refine ⟨?_, rfl, rfl⟩
    have hm : (height : Int) - 2 - 0 + 1 ≠ 0 := by omega
    have h0 := Int.emod_nonneg ((g'.seq g'.idx : Int)) hm
    have h1 := Int.emod_lt_of_pos ((g'.seq g'.idx : Int))
      (show (0 : Int) < height - 2 - 0 + 1 by omega)
    dsimp only
    constructor <;> omega

theorem stepWrite_bounds (w : MatrixWorker) (d : MatrixDisplay) (height width : Int)
    (g : Rng) (hh : 2 ≤ height) (hy : 0 ≤ w.y ∧ w.y ≤ height - 2) :
    (0 ≤ ((w.stepWrite d height width g).1).y ∧
      ((w.stepWrite d height width g).1).y ≤ height - 2) ∧
    (∀ c o v, (c, o, v) ∈ ((w.stepWrite d height width g).2.1).cells →
      (c, o, v) ∈ d.cells ∨ (0 ≤ c.1 ∧ c.1 ≤ height - 2)) := by
  unfold MatrixWorker.stepWrite
  rcases htext : w.text with _ | ⟨ch, rest⟩
  · dsimp only
    exact ⟨hy, fun c o v h => Or.inl h⟩
  · dsimp only
    rcases hinc : MatrixWorker.increment_position
        { w with text := rest, cells := w.cells ++ [(w.y, w.x)] }
        (width - 1) (height - 2) g with ⟨w2, g2⟩
    have hyb := increment_position_y_bounds
      { w with text := rest, cells := w.cells ++ [(w.y, w.x)] }
      (width - 1) (height - 2) g (by omega)
    rw [hinc] at hyb
    dsimp only at hyb
    have hentry : ∀ c o v, (c, o, v) ∈ (d.write ch (w.y, w.x) w.id).cells →
        (c, o, v) ∈ d.cells ∨ (0 ≤ c.1 ∧ c.1 ≤ height - 2) := by
      intro c o v hmem
      rcases mem_write_cells hmem with he | he
      · right
        have : c = (w.y, w.x) := congrArg Prod.fst he
        rw [this]
        exact hy
      · exact Or.inl he
    dsimp only
    by_cases hgt : w2.cells.length > (d.write ch (w.y, w.x) w.id).MAX_LEN
    · rw [if_pos hgt]
      rcases hcc : w2.cells with _ | ⟨c0, rest2⟩
      · dsimp only
        exact ⟨hyb, hentry⟩
      · dsimp only
        refine ⟨hyb, ?_⟩
        intro c o v hmem
        exact hentry c o v (mem_erase_cells hmem)
    · rw [if_neg hgt]
      dsimp only
      exact ⟨hyb, hentry⟩

/-- C10: with the program's direction vector `(0, 1)`, a step of any actor
whose row is within `[0, height - 2]` (or that is about to respawn in `Init`)
keeps the row in `[0, height - 2]` — the spawn row is drawn from
`[0, height - 2]` and the wrap reduces the row modulo `height - 1` — and
every occupancy entry the step adds lies in a row in `[0, height - 2]`: the
last screen row is never written. -/
theorem rows_stay_in_bounds (w : MatrixWorker) (d : MatrixDisplay) (height width : Int)
    (g : Rng) (w' : MatrixWorker) (d' : MatrixDisplay) (g' : Rng)
    (hdx : w.dx = 0) (hdy : w.dy = 1) (hh : 2 ≤ height)
    (hy : w.state = WState.init ∨ (0 ≤ w.y ∧ w.y ≤ height - 2))
    (hstep : w.step d height width g = some (w', d', g')) :
    (0 ≤ w'.y ∧ w'.y ≤ height - 2) ∧
    (∀ c o v, (c, o, v) ∈ d'.cells → (c, o, v) ∈ d.cells ∨ (0 ≤ c.1 ∧ c.1 ≤ height - 2)) := by
  unfold MatrixWorker.step at hstep
  rcases h0 : (if w.state = WState.init then w.stepInit d.lines height width g
      else some (w, g)) with _ | ⟨w1, g1⟩ <;> rw [h0] at hstep
  · cases hstep
  · dsimp only at hstep
    have hy1 : 0 ≤ w1.y ∧ w1.y ≤ height - 2 := by
      by_cases hst : w.state = WState.init
      · rw [if_pos hst] at h0
        exact (stepInit_y_bounds hh h0).1
      · rw [if_neg hst] at h0
        simp only [Option.some.injEq, Prod.mk.injEq] at h0
        rw [← h0.1]
        rcases hy with hy | hy
        · exact absurd hy hst
        · exact hy
    rcases h2 : (if w1.state = WState.write then w1.stepWrite d height width g1
        else (w1, d, g1)) with ⟨w2, d2, g2⟩
    rw [h2] at hstep
    dsimp only at hstep
    have hb2 : (0 ≤ w2.y ∧ w2.y ≤ height - 2) ∧
        (∀ c o v, (c, o, v) ∈ d2.cells →
          (c, o, v) ∈ d.cells ∨ (0 ≤ c.1 ∧ c.1 ≤ height - 2)) := by
      by_cases hst : w1.state = WState.write
      · rw [if_pos hst] at h2
        have hb := stepWrite_bounds w1 d height width g1 hh hy1
        rw [h2] at hb
        exact hb
      · rw [if_neg hst] at h2
        simp only [Prod.mk.injEq] at h2
        obtain ⟨e1, e2, _⟩ := h2
        rw [← e1, ← e2]
        exact ⟨hy1, fun c o v h => Or.inl h⟩
    rcases h3 : (if w2.state = WState.erase then w2.stepErase d2 else (w2, d2)) with ⟨w3, d3⟩
    rw [h3] at hstep
    dsimp only at hstep
    have hb3 : (0 ≤ w3.y ∧ w3.y ≤ height - 2) ∧
        (∀ c o v, (c, o, v) ∈ d3.cells →
          (c, o, v) ∈ d.cells ∨ (0 ≤ c.1 ∧ c.1 ≤ height - 2)) := by
      by_cases hst : w2.state = WState.erase
      · rw [if_pos hst] at h3
        constructor
        · have hf := stepErase_fst w2 d2
          rw [h3] at hf
          dsimp only at hf
          rw [hf]
          split <;> exact hb2.1
        · intro c o v hmem
          apply hb2.2
          have := mem_stepErase_cells (w := w2) (d := d2) (e := (c, o, v))
          rw [h3] at this
          exact this hmem
      · rw [if_neg hst] at h3
        simp only [Prod.mk.injEq] at h3
        obtain ⟨e1, e2⟩ := h3
        rw [← e1, ← e2]
        exact hb2
    rcases h4 : (if w3.state = WState.exit then w3.stepExit d3 else (w3, d3)) with ⟨w4, d4⟩
    rw [h4] at hstep
    dsimp only at hstep
    have hb4 : (0 ≤ w4.y ∧ w4.y ≤ height - 2) ∧
        (∀ c o v, (c, o, v) ∈ d4.cells →
          (c, o, v) ∈ d.cells ∨ (0 ≤ c.1 ∧ c.1 ≤ height - 2)) := by
      by_cases hst : w3.state = WState.exit
      · rw [if_pos hst] at h4
        constructor
        · have hf := stepExit_fst w3 d3
          rw [h4] at hf
          dsimp only at hf
          rw [hf]
          exact hb3.1
        · intro c o v hmem
          apply hb3.2
          have := mem_stepExit_cells (w := w3) (d := d3) (e := (c, o, v))
          rw [h4] at this
          exact this hmem
      · rw [if_neg hst] at h4
        simp only [Prod.mk.injEq] at h4
        obtain ⟨e1, e2⟩ := h4
        rw [← e1, ← e2]
        exact hb3
    simp only [Option.some.injEq, Prod.mk.injEq] at hstep
    obtain ⟨ew, ed, _⟩ := hstep
    rw [← ew, ← ed]
    exact hb4

/-- Witness for C10: stepping the scenario actor (row 0, height 5) keeps the
row in `[0, 3]`, and the entry it wrote at `(0, 3)` is new and lies in row
`0 ≤ 0 ≤ 3`. -/
theorem rows_stay_in_bounds_witness :
    (0 ≤ scenW1.y ∧ scenW1.y ≤ 5 - 2) ∧
    ((((0, 3) : Cell), 0, 'A') ∈ scenD0.cells ∨
      (0 ≤ ((0, 3) : Cell).1 ∧ ((0, 3) : Cell).1 ≤ 5 - 2)) := by
  have h := rows_stay_in_bounds scenW0 scenD0 5 10 scenRng scenW1 scenD1 scenRng
    rfl rfl (by omega) (Or.inr (by constructor <;> decide)) rfl
  exact ⟨h.1, h.2 (0, 3) 0 'A' (by decide)⟩

/-! ### The shutdown drain loop (claim C3) -/

/-- One pass of `MatrixDisplay.step` over the worker pool during shutdown:
every worker (all in the `'exit'` state, so `step` reduces to its `'exit'`
branch) sheds cells against the display, in identifier order. -/
def drainWorkers : MatrixDisplay → List MatrixWorker → MatrixDisplay × List MatrixWorker
  | d, [] => (d, [])
  | d, w :: ws =>
      let (w', d') := w.stepExit d
      let (d'', ws') := drainWorkers d' ws
      (d'', w' :: ws')

/-- One tick of the `while self.cells or self.recent_removals` shutdown loop:
the due refresh, then the worker pass. -/
def drainTick (p : MatrixDisplay × List MatrixWorker) : MatrixDisplay × List MatrixWorker :=
  drainWorkers p.1.refresh p.2

/-- `n` shutdown ticks. -/
def drainTicks : Nat → MatrixDisplay × List MatrixWorker → MatrixDisplay × List MatrixWorker
  | 0, p => p
  | Nat.succ n, p => drainTicks n (drainTick p)

/-- Total number of occupied-cell list entries across the pool — the drain
measure, proportional to the cells on screen at signal time. -/
def totalCells (ws : List MatrixWorker) : Nat :=
  (ws.map (fun w => w.cells.length)).sum

/-- Every occupancy entry of the grid is held in its owner's cell list. -/
def ownerTracked (d : MatrixDisplay) (ws : List MatrixWorker) : Prop :=
  ∀ c o v, (c, o, v) ∈ d.cells → ∃ w ∈ ws, w.id = o ∧ c ∈ w.cells

theorem stepExit_nil (w : MatrixWorker) (d : MatrixDisplay) (hc : w.cells = []) :
    w.stepExit d = (w, d) := by
  obtain ⟨i, t, x, y, dx, dy, cells, st⟩ := w
  simp only at hc
  subst hc
  rfl

theorem eraseOldest_entry_tracking (w : MatrixWorker) (d : MatrixDisplay)
    (hnd : keysNodup d.cells) :
    keysNodup ((eraseOldest w d).2).cells ∧
    ∀ c o v, (c, o, v) ∈ ((eraseOldest w d).2).cells →
      (c, o, v) ∈ d.cells ∧ (o = w.id → c ∈ w.cells → c ∈ ((eraseOldest w d).1).cells) := by
  unfold eraseOldest
  rcases hc : w.cells with _ | ⟨c0, rest⟩
  · dsimp only
    refine ⟨hnd, ?_⟩
    intro c o v h
    exact ⟨h, fun _ hcw => absurd hcw (List.not_mem_nil c)⟩
  · dsimp only
    refine ⟨keysNodup_erase c0 w.id hnd, ?_⟩
    intro c o v hmem
    have hd := mem_erase_cells hmem
    refine ⟨hd, ?_⟩
    intro ho hcw
    by_cases hcc : c = c0
    · exfalso
      subst hcc
      exact erase_removes_owned hnd hd ho hmem
    · rcases List.mem_cons.mp hcw with h | h
      · exact absurd h hcc
      · exact h

theorem eraseNewest_entry_tracking (w : MatrixWorker) (d : MatrixDisplay)
    (hnd : keysNodup d.cells) :
    keysNodup ((eraseNewest w d).2).cells ∧
    ∀ c o v, (c, o, v) ∈ ((eraseNewest w d).2).cells →
      (c, o, v) ∈ d.cells ∧ (o = w.id → c ∈ w.cells → c ∈ ((eraseNewest w d).1).cells) := by
  rcases List.eq_nil_or_concat w.cells with hnil | ⟨L, b, hcat⟩
  · have heq : eraseNewest w d = (w, d) := by
      unfold eraseNewest
      rw [hnil]
      rfl
    rw [heq]
    refine ⟨hnd, ?_⟩
    intro c o v h
    exact ⟨h, fun _ hcw => hcw⟩
  · unfold eraseNewest
    rw [hcat, List.concat_eq_append, List.getLast?_concat]
    dsimp only
    refine ⟨keysNodup_erase b w.id hnd, ?_⟩
    intro c o v hmem
    have hd := mem_erase_cells hmem
    refine ⟨hd, ?_⟩
    intro ho hcw
    rw [List.dropLast_concat]
    by_cases hcb : c = b
    · exfalso
      subst hcb
      exact erase_removes_owned hnd hd ho hmem
    · rcases List.mem_append.mp hcw with h | h
      · exact h
      · simp only [List.mem_singleton] at h
        exact absurd h hcb

theorem stepExit_entry_tracking (w : MatrixWorker) (d : MatrixDisplay)
    (hnd : keysNodup d.cells) :
    keysNodup ((w.stepExit d).2).cells ∧
    ∀ c o v, (c, o, v) ∈ ((w.stepExit d).2).cells →
      (c, o, v) ∈ d.cells ∧ (o = w.id → c ∈ w.cells → c ∈ ((w.stepExit d).1).cells) := by
  unfold MatrixWorker.stepExit
  rcases h1 : eraseOldest w d with ⟨w1, d1⟩
  rcases h2 : eraseOldest w1 d1 with ⟨w2, d2⟩
  have t1 := eraseOldest_entry_tracking w d hnd
  rw [h1] at t1
  dsimp only at t1
  have t2 := eraseOldest_entry_tracking w1 d1 t1.1
  rw [h2] at t2
  dsimp only at t2
  have t3 := eraseNewest_entry_tracking w2 d2 t2.1
  have hid1 : w1.id = w.id := by
    have := eraseOldest_fst w d
    rw [h1] at this
    dsimp only at this
    rw [this]
  have hid2 : w2.id = w1.id := by
    have := eraseOldest_fst w1 d1
    rw [h2] at this
    dsimp only at this
    rw [this]
  dsimp only
  rw [h2]
  dsimp only
  refine ⟨t3.1, ?_⟩
  intro c o v hmem
  obtain ⟨hm2, htk3⟩ := t3.2 c o v hmem
  obtain ⟨hm1, htk2⟩ := t2.2 c o v hm2
  obtain ⟨hm0, htk1⟩ := t1.2 c o v hm1
  refine ⟨hm0, ?_⟩
  intro ho hcw
  exact htk3 (by rw [hid2, hid1]; exact ho) (htk2 (by rw [hid1]; exact ho) (htk1 ho hcw))

theorem drainWorkers_cons (d : MatrixDisplay) (w : MatrixWorker) (ws : List MatrixWorker) :
    drainWorkers d (w :: ws) =
      ((drainWorkers (w.stepExit d).2 ws).1,
        (w.stepExit d).1 :: (drainWorkers (w.stepExit d).2 ws).2) := by
  rcases hs : w.stepExit d with ⟨w', d'⟩
  rcases hdw : drainWorkers d' ws with ⟨dd, wws⟩
  simp only [drainWorkers, hs, hdw]

theorem totalCells_cons (w : MatrixWorker) (l : List MatrixWorker) :
    totalCells (w :: l) = w.cells.length + totalCells l := by
  simp [totalCells]

theorem stepExit_cells_len (w : MatrixWorker) (d : MatrixDisplay) :
    ((w.stepExit d).1).cells.length = w.cells.length - 3 := by
  rw [stepExit_fst]
  dsimp only
  simp only [List.length_dropLast, List.length_tail]
  omega

theorem drainWorkers_total (ws : List MatrixWorker) (d : MatrixDisplay) :
    totalCells ((drainWorkers d ws).2) ≤ totalCells ws ∧
    ((∃ w ∈ ws, w.cells ≠ []) → totalCells ((drainWorkers d ws).2) < totalCells ws) := by
  induction ws generalizing d with
  | nil =>
      constructor
      · exact le_refl _
      · rintro ⟨u, hu, _⟩
        cases hu
  | cons w ws ih =>
      rw [drainWorkers_cons]
      have hlen := stepExit_cells_len w d
      have iht := ih ((w.stepExit d).2)
      rw [totalCells_cons, totalCells_cons]
      constructor
      · omega
      · rintro ⟨u, hu, hune⟩
        rcases List.mem_cons.mp hu with heq | hu
        · subst heq
          have hpos : 0 < u.cells.length := List.length_pos.mpr hune
          omega
        · have := iht.2 ⟨u, hu, hune⟩
          omega

theorem drainWorkers_states (ws : List MatrixWorker) (d : MatrixDisplay)
    (hex : ∀ w ∈ ws, w.state = WState.exit) :
    ∀ w' ∈ ((drainWorkers d ws).2), w'.state = WState.exit := by
  induction ws generalizing d with
  | nil =>
      intro w' hw'
      cases hw'
  | cons w ws ih =>
      rw [drainWorkers_cons]
      intro w' hw'
      rcases List.mem_cons.mp hw' with heq | hw'
      · subst heq
        rw [stepExit_fst]
        exact hex w (List.mem_cons_self w ws)
      · exact ih ((w.stepExit d).2) (fun u hu => hex u (List.mem_cons_of_mem w hu)) w' hw'

theorem drainWorkers_nil_cells (ws : List MatrixWorker) (d : MatrixDisplay)
    (hall : ∀ w ∈ ws, w.cells = []) :
    drainWorkers d ws = (d, ws) := by
  induction ws generalizing d with
  | nil => rfl
  | cons w ws ih =>
      rw [drainWorkers_cons, stepExit_nil w d (hall w (List.mem_cons_self w ws))]
      rw [ih d (fun u hu => hall u (List.mem_cons_of_mem w hu))]

theorem drainWorkers_tracking (ws : List MatrixWorker) (d : MatrixDisplay)
    (pre : List MatrixWorker) (hnd : keysNodup d.cells)
    (htr : ∀ c o v, (c, o, v) ∈ d.cells →
      (∃ w ∈ pre, w.id = o ∧ c ∈ w.cells) ∨ (∃ w ∈ ws, w.id = o ∧ c ∈ w.cells)) :
    keysNodup ((drainWorkers d ws).1).cells ∧
    (∀ c o v, (c, o, v) ∈ ((drainWorkers d ws).1).cells →
      (∃ w ∈ pre, w.id = o ∧ c ∈ w.cells) ∨
      (∃ w ∈ (drainWorkers d ws).2, w.id = o ∧ c ∈ w.cells)) := by
  induction ws generalizing d pre with
  | nil =>
      refine ⟨hnd, ?_⟩
      intro c o v h
      rcases htr c o v h with h | ⟨u, hu, _⟩
      · exact Or.inl h
      · cases hu
  | cons w ws ih =>
      rw [drainWorkers_cons]
      have ht := stepExit_entry_tracking w d hnd
      have hid : ((w.stepExit d).1).id = w.id := by
        rw [stepExit_fst]
      have htr' : ∀ c o v, (c, o, v) ∈ ((w.stepExit d).2).cells →
          (∃ u ∈ pre ++ [(w.stepExit d).1], u.id = o ∧ c ∈ u.cells) ∨
          (∃ u ∈ ws, u.id = o ∧ c ∈ u.cells) := by
        intro c o v h
        obtain ⟨hold, htrk⟩ := ht.2 c o v h
        rcases htr c o v hold with ⟨u, hu, huid, hcu⟩ | ⟨u, hu, huid, hcu⟩
        · exact Or.inl ⟨u, List.mem_append_left _ hu, huid, hcu⟩
        · rcases List.mem_cons.mp hu with heq | hu
          · have hwid : w.id = o := heq ▸ huid
            have hcw : c ∈ w.cells := heq ▸ hcu
            left
            refine ⟨(w.stepExit d).1,
              List.mem_append_right _ (List.mem_singleton_self _), ?_, ?_⟩
            · rw [hid, hwid]
            · exact htrk hwid.symm hcw
          · exact Or.inr ⟨u, hu, huid, hcu⟩
      have hrec := ih ((w.stepExit d).2) (pre ++ [(w.stepExit d).1]) ht.1 htr'
      refine ⟨hrec.1, ?_⟩
      intro c o v h
      rcases hrec.2 c o v h with ⟨u, hu, hid', hcu⟩ | ⟨u, hu, hid', hcu⟩
      · rcases List.mem_append.mp hu with hu | hu
        · exact Or.inl ⟨u, hu, hid', hcu⟩
        · rw [List.mem_singleton] at hu
          refine Or.inr ⟨u, ?_, hid', hcu⟩
          rw [hu]
          exact List.mem_cons_self _ _
      · exact Or.inr ⟨u, List.mem_cons_of_mem _ hu, hid', hcu⟩

theorem drainTicks_succ_last (n : Nat) (p : MatrixDisplay × List MatrixWorker) :
    drainTicks (n + 1) p = drainTick (drainTicks n p) := by
  induction n generalizing p with
  | zero => rfl
  | succ n ih =>
      show drainTicks (n + 1) (drainTick p) = drainTick (drainTicks (n + 1) p)
      rw [ih (drainTick p)]
      rfl

theorem totalCells_eq_zero {ws : List MatrixWorker} (h : ∀ w ∈ ws, w.cells = []) :
    totalCells ws = 0 := by
  unfold totalCells
  rw [List.sum_eq_zero]
  intro x hx
  rcases List.mem_map.mp hx with ⟨w, hw, rfl⟩
  rw [h w hw]
  rfl

theorem totalCells_zero_all_nil {ws : List MatrixWorker} (h : totalCells ws = 0) :
    ∀ w ∈ ws, w.cells = [] := by
  intro w hw
  unfold totalCells at h
  have hm : w.cells.length ∈ ws.map (fun w => w.cells.length) :=
    List.mem_map.mpr ⟨w, hw, rfl⟩
  have : w.cells.length = 0 := List.sum_eq_zero_iff.mp h _ hm
  exact List.length_eq_zero.mp this

theorem drainTick_nil (d : MatrixDisplay) (ws : List MatrixWorker)
    (hall : ∀ w ∈ ws, w.cells = []) :
    drainTick (d, ws) = (d.refresh, ws) := by
  unfold drainTick
  exact drainWorkers_nil_cells ws d.refresh hall

theorem drainTicks_all_nil (n : Nat) (d : MatrixDisplay) (ws : List MatrixWorker)
    (hn : totalCells ws ≤ n) :
    ∀ w ∈ (drainTicks n (d, ws)).2, w.cells = [] := by
  induction n generalizing d ws with
  | zero => exact totalCells_zero_all_nil (Nat.le_zero.mp hn)
  | succ n ih =>
      show ∀ w ∈ (drainTicks n (drainTick (d, ws))).2, w.cells = []
      by_cases hall : ∀ w ∈ ws, w.cells = []
      · rw [drainTick_nil d ws hall]
        exact ih d.refresh ws (by rw [totalCells_eq_zero hall]; omega)
      · push_neg at hall
        have hlt := (drainWorkers_total ws d.refresh).2
          (by rcases hall with ⟨u, hu, hune⟩; exact ⟨u, hu, hune⟩)
        rcases hdt : drainWorkers d.refresh ws with ⟨d1, ws1⟩
        rw [hdt] at hlt
        dsimp only at hlt
        rw [show drainTick (d, ws) = (d1, ws1) from by unfold drainTick; exact hdt]
        exact ih d1 ws1 (by omega)

theorem drainTicks_states (n : Nat) (d : MatrixDisplay) (ws : List MatrixWorker)
    (hex : ∀ w ∈ ws, w.state = WState.exit) :
    ∀ w ∈ (drainTicks n (d, ws)).2, w.state = WState.exit := by
  induction n generalizing d ws with
  | zero => exact hex
  | succ n ih =>
      show ∀ w ∈ (drainTicks n (drainTick (d, ws))).2, w.state = WState.exit
      rcases hdt : drainWorkers d.refresh ws with ⟨d1, ws1⟩
      have hws1 : ∀ w ∈ ws1, w.state = WState.exit := by
        have := drainWorkers_states ws d.refresh hex
        rw [hdt] at this
        exact this
      rw [show drainTick (d, ws) = (d1, ws1) from by unfold drainTick; exact hdt]
      exact ih d1 ws1 hws1

theorem drainTicks_tracking (n : Nat) (d : MatrixDisplay) (ws : List MatrixWorker)
    (hnd : keysNodup d.cells) (htr : ownerTracked d ws) :
    keysNodup ((drainTicks n (d, ws)).1).cells ∧
    ownerTracked ((drainTicks n (d, ws)).1) ((drainTicks n (d, ws)).2) := by
  induction n generalizing d ws with
  | zero => exact ⟨hnd, htr⟩
  | succ n ih =>
      rcases hdt : drainWorkers d.refresh ws with ⟨d1, ws1⟩
      have htk := drainWorkers_tracking ws d.refresh [] hnd
        (fun c o v h => Or.inr (htr c o v h))
      rw [hdt] at htk
      have htr1 : ownerTracked d1 ws1 := by
        intro c o v h
        rcases htk.2 c o v h with ⟨u, hu, _⟩ | hh
        · cases hu
        · exact hh
      have heq : drainTicks (n + 1) (d, ws) = drainTicks n (d1, ws1) := by
        show drainTicks n (drainTick (d, ws)) = drainTicks n (d1, ws1)
        rw [show drainTick (d, ws) = (d1, ws1) from by unfold drainTick; exact hdt]
      rw [heq]
      exact ih d1 ws1 htk.1 htr1

/-- C3: once every actor is in the `Exit` state, `totalCells + 1` scheduler
ticks — a bound proportional to the occupied cells at signal time — leave the
occupancy map and the pending-removal set both empty, after which the final
refresh changes nothing and the loop guard is false; along the way every
actor stays in `Exit` with an eventually-empty list.  Moreover each `Exit`
invocation sheds exactly up to two cells from the oldest end and one from the
newest end of the occupied-cell list (`(drop (min 2 len)).dropLast`), never
changes the state (so `Exit` never returns to `Init`), and a full scheduler
`step` of an `Exit`-state actor is precisely this shedding.  The hypotheses —
distinct occupancy keys and every entry tracked by its owner's list — hold in
every state the program reaches. -/
theorem shutdown_drains_grid (d : MatrixDisplay) (ws : List MatrixWorker)
    (hex : ∀ w ∈ ws, w.state = WState.exit)
    (hnd : keysNodup d.cells)
    (htr : ownerTracked d ws) :
    ((drainTicks (totalCells ws + 1) (d, ws)).1).cells = [] ∧
    ((drainTicks (totalCells ws + 1) (d, ws)).1).recent_removals = ∅ ∧
    (∀ w ∈ (drainTicks (totalCells ws + 1) (d, ws)).2,
      w.state = WState.exit ∧ w.cells = []) ∧
    (∀ (u : MatrixWorker) (e : MatrixDisplay),
      ((u.stepExit e).1).cells = (u.cells.drop (min 2 u.cells.length)).dropLast ∧
      ((u.stepExit e).1).state = u.state) ∧
    (∀ (u : MatrixWorker) (e : MatrixDisplay) (hh ww : Int) (g : Rng),
      u.state = WState.exit →
      u.step e hh ww g = some ((u.stepExit e).1, (u.stepExit e).2, g)) := by
  have hsucc := drainTicks_succ_last (totalCells ws) (d, ws)
  rcases hN : drainTicks (totalCells ws) (d, ws) with ⟨dN, wsN⟩
  have hallnil : ∀ w ∈ wsN, w.cells = [] := by
    have := drainTicks_all_nil (totalCells ws) d ws (le_refl _)
    rw [hN] at this
    exact this
  have hstatesN : ∀ w ∈ wsN, w.state = WState.exit := by
    have := drainTicks_states (totalCells ws) d ws hex
    rw [hN] at this
    exact this
  have htkN := drainTicks_tracking (totalCells ws) d ws hnd htr
  rw [hN] at htkN
  have hcellsN : dN.cells = [] := by
    rcases hc : dN.cells with _ | ⟨e, rest⟩
    · rfl
    · exfalso
      obtain ⟨c, o, v⟩ := e
      have hmem : (c, o, v) ∈ dN.cells := by
        rw [hc]
        exact List.mem_cons_self _ _
      obtain ⟨u, hu, _, hcu⟩ := htkN.2 c o v hmem
      rw [hallnil u hu] at hcu
      cases hcu
  have hfinal : drainTicks (totalCells ws + 1) (d, ws) = (dN.refresh, wsN) := by
    rw [hsucc, hN, drainTick_nil dN wsN hallnil]
  rw [hfinal]
  refine ⟨hcellsN, rfl, ?_, ?_, ?_⟩
  · intro w hw
    exact ⟨hstatesN w hw, hallnil w hw⟩
  · intro u e
    constructor
    · rw [stepExit_fst]
      dsimp only
      rw [tail_tail_eq_drop_min_two]
    · rw [stepExit_fst]
  · intro u e hh ww g hst
    unfold MatrixWorker.step
    have h1 : ¬ (u.state = WState.init) := by rw [hst]; intro hco; cases hco
    have h2 : ¬ (u.state = WState.write) := by rw [hst]; intro hco; cases hco
    have h3 : ¬ (u.state = WState.erase) := by rw [hst]; intro hco; cases hco
    rw [if_neg h1]
    dsimp only
    rw [if_neg h2]
    dsimp only
    rw [if_neg h3]
    dsimp only
    rw [if_pos hst]

/-- A one-worker pool at shutdown: worker 5 owns cell `(0, 0)`. -/
def drainW : MatrixWorker :=
  { id := 5, text := [], x := 0, y := 0, dx := 0, dy := 1, cells := [(0, 0)],
    state := WState.exit }

def drainD : MatrixDisplay :=
  { lines := [], cells := [((0, 0), 5, 'Z')], recent_additions := ∅,
    recent_removals := {(1, 1)}, MAX_LEN := 30 }

/-- Witness for C3: with one occupied cell, two drain ticks empty the
occupancy map and the pending-removal set. -/
theorem shutdown_drains_grid_witness :
    ((drainTicks (totalCells [drainW] + 1) (drainD, [drainW])).1).cells = [] ∧
    ((drainTicks (totalCells [drainW] + 1) (drainD, [drainW])).1).recent_removals = ∅ := by
  have h := shutdown_drains_grid drainD [drainW]
    (by
      intro w hw
      rw [List.mem_singleton] at hw
      rw [hw]
      rfl)
    (by
      unfold keysNodup
      decide)
    (by
      intro c o v h
      simp only [drainD, List.mem_singleton, Prod.mk.injEq] at h
      obtain ⟨rfl, rfl, rfl⟩ := h
      refine ⟨drainW, List.mem_singleton_self _, rfl, ?_⟩
      exact List.mem_singleton_self _)
  exact ⟨h.1, h.2.1⟩
